import Mathlib

/-!
Verification of the Result Aggregation & Scoring Engine of the
code-review-ai-bot repository.

The definitions below are shallow embeddings of the TypeScript sources:

* `deduplicateComments`, `prioritizeComments`, `calculateOverallScore`
  follow `src/agents/summary/summary-agent.service.ts`;
* `determineReviewEvent` follows the private method of the enhanced PR
  agent service;
* `calculateConfidence`, `calculateSimilarity`, `levenshteinDistance`
  follow `src/agents/pr-review/auto-fix.service.ts`;
* `parseResponse`, `parseStructuredText` and the JSON parser follow
  `src/agents/base/base-agent.service.ts` (the JSON parser models the
  JavaScript built-in `JSON.parse`).

JavaScript numbers are modelled as `ℚ` (with `jsRound q = ⌊q + 1/2⌋` for
`Math.round`), JavaScript `Map` as an association list with insertion-order
semantics, and `Array.prototype.sort` (stable since ES2019) as a stable
insertion sort.
-/

namespace CodeReviewBot

/-- `'low' | 'medium' | 'high'` from `agent-result.interface.ts`. -/
inductive Severity where
  | low
  | medium
  | high
deriving DecidableEq, Repr

/-- `ReviewComment` from `agent-result.interface.ts` (the fields the engine
reads; `source` is the agent name attached by `aggregateComments`). -/
structure ReviewComment where
  file : String
  line : Option Nat := none
  message : String
  severity : Severity
  category : String
  suggestion : Option String := none
  ruleId : Option String := none
  source : Option String := none
deriving DecidableEq, Repr

/-- The inline lookup `const severityOrder = { high: 3, medium: 2, low: 1 }`
used by both `deduplicateComments` and `prioritizeComments`. -/
def severityOrder : Severity → Nat
  | .high => 3
  | .medium => 2
  | .low => 1

/-- JavaScript string interpolation of `comment.line` (an absent optional
field prints as `undefined`). -/
def lineStr : Option Nat → String
  | some n => toString n
  | none => "undefined"

/-- `comment.message.substring(0, 50)`. -/
def substr50 (s : String) : String := ⟨s.data.take 50⟩

/-- The deduplication key
`` `${comment.file}:${comment.line}:${comment.message.substring(0, 50)}` ``. -/
def dedupKey (c : ReviewComment) : String :=
  c.file ++ ":" ++ lineStr c.line ++ ":" ++ substr50 c.message

/-- `Map.prototype.get` / `Map.prototype.has` on the insertion-ordered
association list that models the JavaScript `Map`. -/
def mapLookup : List (String × ReviewComment) → String → Option ReviewComment
  | [], _ => none
  | (k, c) :: rest, key => if k = key then some c else mapLookup rest key

/-- `Map.prototype.set`: replaces the value in place when the key is present
(JavaScript `Map` keeps the original insertion position), appends at the end
otherwise. -/
def mapSet : List (String × ReviewComment) → String → ReviewComment →
    List (String × ReviewComment)
  | [], key, c => [(key, c)]
  | (k, c0) :: rest, key, c =>
      if k = key then (k, c) :: rest else (k, c0) :: mapSet rest key c

/-- The body of the `comments.forEach` loop of `deduplicateComments`. -/
def dedupStep (seen : List (String × ReviewComment)) (c : ReviewComment) :
    List (String × ReviewComment) :=
  let key := dedupKey c
  match mapLookup seen key with
  | none => mapSet seen key c
  | some existing =>
      if severityOrder c.severity > severityOrder existing.severity then
        mapSet seen key c
      else seen

/-- `deduplicateComments` from `summary-agent.service.ts`: fold the comments
into the `seen` map, then `Array.from(seen.values())`. -/
def deduplicateComments (comments : List ReviewComment) : List ReviewComment :=
  (comments.foldl dedupStep []).map Prod.snd

/-- The keys of the association list modelling the `seen` map. -/
def mapKeys (m : List (String × ReviewComment)) : List String := m.map Prod.fst

/-- Well-formedness of the `seen` map as built by `deduplicateComments`:
keys are distinct and every entry is stored under the fingerprint of its
comment. -/
def mapWF (m : List (String × ReviewComment)) : Prop :=
  (mapKeys m).Nodup ∧ ∀ p ∈ m, p.1 = dedupKey p.2

/-- The per-key merge `deduplicateComments` performs: the first comment is
kept unless a strictly higher severity arrives. -/
def updMax (o : Option ReviewComment) (c : ReviewComment) :
    Option ReviewComment :=
  match o with
  | none => some c
  | some e =>
      if severityOrder c.severity > severityOrder e.severity then some c
      else some e

/-- The maximal severity rank occurring in a list of comments. -/
def maxRank (l : List ReviewComment) : Nat :=
  (l.map fun c => severityOrder c.severity).foldr max 0

/-- The first comment of maximal severity rank — the winner the dedup
tie-break keeps for one fingerprint. -/
def firstMax (l : List ReviewComment) : Option ReviewComment :=
  l.find? fun c => decide (severityOrder c.severity = maxRank l)

/-- The inline lookup `categoryOrder` of `prioritizeComments`, with the
`|| 1` default for unlisted categories. -/
def categoryOrder (cat : String) : Nat :=
  if cat = "security" then 10
  else if cat = "authentication" then 9
  else if cat = "injection" then 9
  else if cat = "exposure" then 8
  else if cat = "algorithm" then 7
  else if cat = "memory" then 6
  else if cat = "database" then 6
  else if cat = "structure" then 5
  else if cat = "complexity" then 5
  else if cat = "network" then 4
  else if cat = "naming" then 3
  else if cat = "documentation" then 2
  else if cat = "performance" then 4
  else 1

/-- Character-wise comparison of two strings; models
`String.prototype.localeCompare` (ICU collation modelled as code-point
order). -/
def charListCompare : List Char → List Char → Ordering
  | [], [] => .eq
  | [], _ :: _ => .lt
  | _ :: _, [] => .gt
  | a :: as, b :: bs =>
      if a < b then .lt else if b < a then .gt else charListCompare as bs

/-- `a.file.localeCompare(b.file)` as a sign value. -/
def localeCompare (x y : String) : Int :=
  match charListCompare x.data y.data with
  | .lt => -1
  | .eq => 0
  | .gt => 1

/-- The comparator passed to `comments.sort` in `prioritizeComments`:
severity rank descending, then category importance descending, then
`file.localeCompare` ascending. -/
def cmpComments (a b : ReviewComment) : Int :=
  let severityDiff : Int :=
    (severityOrder b.severity : Int) - (severityOrder a.severity : Int)
  if severityDiff ≠ 0 then severityDiff
  else
    let categoryDiff : Int :=
      (categoryOrder b.category : Int) - (categoryOrder a.category : Int)
    if categoryDiff ≠ 0 then categoryDiff
    else localeCompare a.file b.file

/-- Insertion into a sorted list, placing the new element before the first
element it does not sort strictly after. -/
def sortInsert (le : ReviewComment → ReviewComment → Bool)
    (c : ReviewComment) : List ReviewComment → List ReviewComment
  | [] => [c]
  | d :: rest => if le c d then c :: d :: rest else d :: sortInsert le c rest

/-- Stable insertion sort; models the stable `Array.prototype.sort`
(ES2019). For the consistent key-based comparator `cmpComments`, any stable
sort produces the same output. -/
def stableSort (le : ReviewComment → ReviewComment → Bool) :
    List ReviewComment → List ReviewComment
  | [] => []
  | c :: rest => sortInsert le c (stableSort le rest)

/-- `prioritizeComments`: `comments.sort((a, b) => ...)` with
`cmpComments`. -/
def prioritizeComments (comments : List ReviewComment) : List ReviewComment :=
  stableSort (fun a b => cmpComments a b ≤ 0) comments

/-- The fields of `AgentResult` that the scorer and the verdict resolver
read (`score` is optional in the interface). -/
structure AgentResult where
  agentName : String
  comments : List ReviewComment := []
  score : Option ℚ := none
deriving DecidableEq, Repr

/-- The fixed per-agent lookup `agentWeights` of `calculateOverallScore`,
with the `|| 0.1` default for unknown agents. -/
def agentWeight (name : String) : ℚ :=
  if name = "Security Agent" then 3/10
  else if name = "Code Quality Agent" then 1/4
  else if name = "Performance Agent" then 1/5
  else if name = "Testing Agent" then 3/20
  else if name = "Summary Agent" then 1/10
  else 1/10

/-- JavaScript `Math.round` on a non-negative number: round half up. -/
def jsRound (q : ℚ) : ℤ := ⌊q + 1/2⌋

/-- `calculateOverallScore` from `summary-agent.service.ts`. The `forEach`
loop accumulating `weightedSum` and `totalWeight` is a left fold over the
agent results; `(result.score || 0)` is `score.getD 0`. -/
def calculateOverallScore (agentResults : List AgentResult) : ℤ :=
  if agentResults.length = 0 then 100
  else
    let acc := agentResults.foldl
      (fun (p : ℚ × ℚ) r =>
        let weight := agentWeight r.agentName
        (p.1 + (r.score.getD 0) * weight, p.2 + weight))
      (0, 0)
    if acc.2 > 0 then jsRound (acc.1 / acc.2) else 0

/-- `'low' | 'medium' | 'high'` risk from the PR summary's impact
analysis. -/
inductive RiskLevel where
  | low
  | medium
  | high
deriving DecidableEq, Repr

/-- The `'APPROVE' | 'REQUEST_CHANGES' | 'COMMENT'` review event. -/
inductive ReviewEvent where
  | APPROVE
  | REQUEST_CHANGES
  | COMMENT
deriving DecidableEq, Repr

/-- The part of `EnhancedPRAnalysis` that `determineReviewEvent` reads:
`reviewResult` (an `AgentResult`) and `summary.impactAnalysis.riskLevel`. -/
structure EnhancedPRAnalysis where
  reviewResult : AgentResult
  riskLevel : RiskLevel
deriving DecidableEq, Repr

/-- `determineReviewEvent` from the enhanced PR agent service:
`REQUEST_CHANGES` when there is any high-severity comment, or any
`security`-category comment, or the risk level is high; `APPROVE` when the
score is truthy and at least 85; `COMMENT` otherwise. -/
def determineReviewEvent (analysis : EnhancedPRAnalysis) : ReviewEvent :=
  let criticalIssues :=
    (analysis.reviewResult.comments.filter
      (fun c => decide (c.severity = Severity.high))).length
  let securityIssues :=
    (analysis.reviewResult.comments.filter
      (fun c => decide (c.category = "security"))).length
  if criticalIssues > 0 ∨ securityIssues > 0 ∨
      analysis.riskLevel = RiskLevel.high then
    ReviewEvent.REQUEST_CHANGES
  else
    match analysis.reviewResult.score with
    | some s => if s ≠ 0 ∧ 85 ≤ s then ReviewEvent.APPROVE
                else ReviewEvent.COMMENT
    | none => ReviewEvent.COMMENT

/-- One inner cell pass of the Levenshtein matrix of
`levenshteinDistance`: given the remaining characters of `str1`, the
current character of `str2`, the cell to the left, and the previous row
from the diagonal onwards, produce the rest of the current row. -/
def levRowGo : List Char → Char → Nat → List Nat → List Nat
  | [], _, _, _ => []
  | c1 :: rest, c2, left, pd :: pu :: ptail =>
      let indicator := if c1 = c2 then 0 else 1
      let v := min (left + 1) (min (pu + 1) (pd + indicator))
      v :: levRowGo rest c2 v (pu :: ptail)
  | _ :: _, _, _, _ => []

/-- The outer row loop of the Levenshtein matrix: one row per character of
`str2`, row `j` starting with the cell `j`. -/
def levRows : List Char → List Char → List Nat → Nat → List Nat
  | _, [], prev, _ => prev
  | s1, c2 :: s2rest, prev, j =>
      levRows s1 s2rest (j :: levRowGo s1 c2 j prev) (j + 1)

/-- `levenshteinDistance` from `auto-fix.service.ts`: the dynamic program
over the `(str2.length+1) × (str1.length+1)` matrix, read off at
`matrix[str2.length][str1.length]`. -/
def levenshteinDistance (str1 str2 : String) : Nat :=
  (levRows str1.data str2.data (List.range (str1.data.length + 1)) 1).getLast?
    |>.getD 0

/-- `calculateSimilarity` from `auto-fix.service.ts`:
`(longer.length - editDistance) / longer.length`, `1.0` when both strings
are empty. -/
def calculateSimilarity (str1 str2 : String) : ℚ :=
  let longer := if str1.length > str2.length then str1 else str2
  let shorter := if str1.length > str2.length then str2 else str1
  if longer.length = 0 then 1
  else
    ((longer.length : ℚ) - (levenshteinDistance longer shorter : ℚ)) /
      (longer.length : ℚ)

/-- `String.prototype.startsWith` on character lists. -/
def startsWithL : List Char → List Char → Bool
  | [], _ => true
  | _ :: _, [] => false
  | a :: as, b :: bs => a = b && startsWithL as bs

/-- `String.prototype.includes` on character lists. -/
def containsL (pat : List Char) : List Char → Bool
  | [] => startsWithL pat []
  | c :: rest => startsWithL pat (c :: rest) || containsL pat rest

/-- `originalCode.includes('console.')` and friends. -/
def strContains (s pat : String) : Bool := containsL pat.data s.data

/-- `calculateConfidence` from `auto-fix.service.ts`: base 50, `+30` for
`category === 'style'`, `+20` for `ruleId === 'STYLE-001'` with
`originalCode.includes('console.')`, `-20` for `category === 'quality' &&
severity === 'high'`, `+10` for similarity above `0.7`, clamped to
`[0, 100]` by `Math.min(100, Math.max(0, confidence))`. -/
def calculateConfidence (comment : ReviewComment)
    (originalCode fixedCode : String) : ℤ :=
  let confidence : ℤ := 50
  let confidence :=
    if comment.category = "style" then confidence + 30 else confidence
  let confidence :=
    if comment.ruleId = some "STYLE-001" ∧ strContains originalCode "console."
    then confidence + 20 else confidence
  let confidence :=
    if comment.category = "quality" ∧ comment.severity = Severity.high
    then confidence - 20 else confidence
  let confidence :=
    if calculateSimilarity originalCode fixedCode > 7/10
    then confidence + 10 else confidence
  min 100 (max 0 confidence)

/-! ### The Finding Parser: `JSON.parse` model and structured-text parser -/

/-- JavaScript values occurring in `parseResponse`: everything
`JSON.parse` can produce, plus `NaN` (which `parseInt` can put into a
structured-text comment). -/
inductive Json where
  | null
  | bool (b : Bool)
  | num (q : ℚ)
  | nan
  | str (s : String)
  | arr (elems : List Json)
  | obj (fields : List (String × Json))
deriving Repr

/-- The four whitespace characters `JSON.parse` skips between tokens. -/
def jsonWs (c : Char) : Bool :=
  c == ' ' || c == '\t' || c == '\n' || c == '\r'

/-- The Unicode whitespace set of `String.prototype.trim`. -/
def jsWsTrim (c : Char) : Bool :=
  let n := c.toNat
  n == 9 || n == 10 || n == 11 || n == 12 || n == 13 || n == 32 ||
  n == 0xa0 || n == 0x1680 || (decide (0x2000 ≤ n) && decide (n ≤ 0x200a)) ||
  n == 0x2028 || n == 0x2029 || n == 0x202f || n == 0x205f ||
  n == 0x3000 || n == 0xfeff

/-- Hexadecimal digit test for `\u` escapes. -/
def isHexDigit (c : Char) : Bool :=
  c.isDigit || (decide ('a' ≤ c) && decide (c ≤ 'f')) ||
    (decide ('A' ≤ c) && decide (c ≤ 'F'))

/-- Value of a hexadecimal digit. -/
def hexVal (c : Char) : Nat :=
  if c.isDigit then c.toNat - 48
  else if decide ('a' ≤ c) && decide (c ≤ 'f') then c.toNat - 87
  else c.toNat - 55

/-- Decoding of a single-character JSON string escape. -/
def escToChar : Char → Option Char
  | '"' => some '"'
  | '\\' => some '\\'
  | '/' => some '/'
  | 'b' => some (Char.ofNat 8)
  | 'f' => some (Char.ofNat 12)
  | 'n' => some '\n'
  | 'r' => some '\r'
  | 't' => some '\t'
  | _ => none

/-- JSON string body parser (called after the opening quote): decodes
escape sequences, rejects unescaped control characters, stops at the
closing quote. Fuel decreases once per consumed character. -/
def parseJStr : Nat → List Char → Option (List Char × List Char)
  | 0, _ => none
  | _ + 1, [] => none
  | fuel + 1, c :: rest =>
    if c = '"' then some ([], rest)
    else if c = '\\' then
      match rest with
      | 'u' :: h1 :: h2 :: h3 :: h4 :: rest2 =>
        if isHexDigit h1 && isHexDigit h2 && isHexDigit h3 && isHexDigit h4
        then
          match parseJStr fuel rest2 with
          | some (cs, r) =>
              some (Char.ofNat
                (hexVal h1 * 4096 + hexVal h2 * 256 + hexVal h3 * 16 +
                  hexVal h4) :: cs, r)
          | none => none
        else none
      | e :: rest2 =>
        match escToChar e with
        | some ec =>
          match parseJStr fuel rest2 with
          | some (cs, r) => some (ec :: cs, r)
          | none => none
        | none => none
      | [] => none
    else if c.toNat < 32 then none
    else
      match parseJStr fuel rest with
      | some (cs, r) => some (c :: cs, r)
      | none => none

/-- Decimal value of a digit run. -/
def digitsVal (ds : List Char) : Nat :=
  ds.foldl (fun a c => a * 10 + (c.toNat - 48)) 0

/-- The characters a JSON number consists of. -/
def numChar (c : Char) : Bool :=
  c.isDigit || c == '-' || c == '+' || c == '.' || c == 'e' || c == 'E'

/-- Validation and evaluation of one maximal number token:
`-?(0|[1-9][0-9]*)(\.[0-9]+)?([eE][+-]?[0-9]+)?`, nothing left over. -/
def numTokVal (tok : List Char) : Option ℚ :=
  let s1 : Bool × List Char :=
    match tok with
    | '-' :: r => (true, r)
    | _ => (false, tok)
  let s2 : Option (ℚ × List Char) :=
    match s1.2 with
    | '0' :: r => some (0, r)
    | c :: _ =>
      if c.isDigit then
        some ((digitsVal (s1.2.takeWhile Char.isDigit) : ℚ),
          s1.2.dropWhile Char.isDigit)
      else none
    | [] => none
  match s2 with
  | none => none
  | some (ip, r2) =>
    let s3 : Option (ℚ × List Char) :=
      match r2 with
      | '.' :: r =>
        let ds := r.takeWhile Char.isDigit
        if ds.isEmpty then none
        else some (ip + (digitsVal ds : ℚ) / ((10 : ℚ) ^ ds.length),
          r.dropWhile Char.isDigit)
      | _ => some (ip, r2)
    match s3 with
    | none => none
    | some (base, r3) =>
      let s4 : Option (ℚ × List Char) :=
        match r3 with
        | e :: r =>
          if e = 'e' ∨ e = 'E' then
            let sr : Bool × List Char :=
              match r with
              | '+' :: rr => (false, rr)
              | '-' :: rr => (true, rr)
              | _ => (false, r)
            let ds := sr.2.takeWhile Char.isDigit
            if ds.isEmpty then none
            else some (if sr.1 then base / ((10 : ℚ) ^ digitsVal ds)
              else base * ((10 : ℚ) ^ digitsVal ds),
              sr.2.dropWhile Char.isDigit)
          else none
        | [] => some (base, [])
      match s4 with
      | none => none
      | some (q, r4) =>
        if r4.isEmpty then some (if s1.1 then -q else q) else none

/-- JSON number parser: take the maximal run of number characters and
validate/evaluate it as one token. Within `JSON.parse` this is equivalent
to the grammar, because in accepted inputs a number is always followed by
whitespace, `,`, `]`, `}` or the end — never by another number
character. -/
def parseJNum (cs : List Char) : Option (ℚ × List Char) :=
  match numTokVal (cs.takeWhile numChar) with
  | some q => some (q, cs.dropWhile numChar)
  | none => none

mutual

/-- JSON value parser: skips whitespace and dispatches on the first
character. Models `JSON.parse` value parsing. -/
def parseJVal : Nat → List Char → Option (Json × List Char)
  | 0, _ => none
  | fuel + 1, cs =>
    match cs.dropWhile jsonWs with
    | [] => none
    | c :: r =>
      if c = '{' then parseJObjBody fuel r
      else if c = '[' then parseJArrBody fuel r
      else if c = '"' then
        match parseJStr fuel r with
        | some (out, rest) => some (.str ⟨out⟩, rest)
        | none => none
      else if c = 't' then
        match r with
        | 'r' :: 'u' :: 'e' :: r2 => some (.bool true, r2)
        | _ => none
      else if c = 'f' then
        match r with
        | 'a' :: 'l' :: 's' :: 'e' :: r2 => some (.bool false, r2)
        | _ => none
      else if c = 'n' then
        match r with
        | 'u' :: 'l' :: 'l' :: r2 => some (.null, r2)
        | _ => none
      else if c = '-' || c.isDigit then
        match parseJNum (c :: r) with
        | some (q, rest) => some (.num q, rest)
        | none => none
      else none

/-- Object parser, called after the `{` was consumed. -/
def parseJObjBody : Nat → List Char → Option (Json × List Char)
  | 0, _ => none
  | fuel + 1, cs =>
    match cs.dropWhile jsonWs with
    | '}' :: r => some (.obj [], r)
    | _ => parseJMembers fuel cs []

/-- Object member loop: `"key" : value` followed by `,` or `}`. -/
def parseJMembers : Nat → List Char → List (String × Json) →
    Option (Json × List Char)
  | 0, _, _ => none
  | fuel + 1, cs, acc =>
    match cs.dropWhile jsonWs with
    | '"' :: r =>
      match parseJStr fuel r with
      | some (key, r2) =>
        match r2.dropWhile jsonWs with
        | ':' :: r3 =>
          match parseJVal fuel r3 with
          | some (v, r4) =>
            match r4.dropWhile jsonWs with
            | ',' :: r5 => parseJMembers fuel r5 (acc ++ [(⟨key⟩, v)])
            | '}' :: r5 => some (.obj (acc ++ [(⟨key⟩, v)]), r5)
            | _ => none
          | none => none
        | _ => none
      | none => none
    | _ => none

/-- Array parser, called after the `[` was consumed. -/
def parseJArrBody : Nat → List Char → Option (Json × List Char)
  | 0, _ => none
  | fuel + 1, cs =>
    match cs.dropWhile jsonWs with
    | ']' :: r => some (.arr [], r)
    | _ => parseJElems fuel cs []

/-- Array element loop: value followed by `,` or `]`. -/
def parseJElems : Nat → List Char → List Json → Option (Json × List Char)
  | 0, _, _ => none
  | fuel + 1, cs, acc =>
    match parseJVal fuel cs with
    | some (v, r) =>
      match r.dropWhile jsonWs with
      | ',' :: r2 => parseJElems fuel r2 (acc ++ [v])
      | ']' :: r2 => some (.arr (acc ++ [v]), r2)
      | _ => none
    | none => none

end

/-- `JSON.parse`: parse one value and require only whitespace after it.
The fuel `3 * (length + 1)` is enough because every cycle of three
nested calls consumes at least one character. -/
def jsonParse (s : String) : Option Json :=
  match parseJVal (3 * (s.data.length + 1)) s.data with
  | some (v, rest) => if (rest.dropWhile jsonWs).isEmpty then some v
      else none
  | none => none

/-- Own-property lookup on a parsed value: only objects have fields, and
for duplicate keys the last assignment wins (as in `JSON.parse`). -/
def objFields : Json → List (String × Json)
  | .obj fields => fields
  | _ => []

/-- The last binding of a key, modelling duplicate-key overwrite. -/
def lookupLast (fields : List (String × Json)) (k : String) : Option Json :=
  fields.foldl (fun acc p => if p.1 = k then some p.2 else acc) none

/-- JavaScript truthiness of a value. -/
def jsTruthy : Json → Bool
  | .null => false
  | .bool b => b
  | .num q => decide (q ≠ 0)
  | .nan => false
  | .str s => decide (s ≠ "")
  | .arr _ => true
  | .obj _ => true

/-- The spec-side usability test: the parse result is a JSON array, or an
object whose `comments` property is a (truthy) array. -/
def usableArray (v : Json) : Bool :=
  match v with
  | .arr _ => true
  | _ =>
    match lookupLast (objFields v) "comments" with
    | some (Json.arr _) => true
    | _ => false

/-- `String.prototype.split` at newlines: first line and remaining
lines. -/
def splitLinesAux : List Char → List Char × List (List Char)
  | [] => ([], [])
  | c :: cs =>
    let ht := splitLinesAux cs
    if c = '\n' then ([], ht.1 :: ht.2) else (c :: ht.1, ht.2)

/-- `response.split('\n')`. -/
def splitLines (l : List Char) : List (List Char) :=
  (splitLinesAux l).1 :: (splitLinesAux l).2

/-- `String.prototype.trim` on a character list. -/
def jsTrim (l : List Char) : List Char :=
  ((l.dropWhile jsWsTrim).reverse.dropWhile jsWsTrim).reverse

/-- `String.prototype.trim`. -/
def jsTrimStr (s : String) : String := ⟨jsTrim s.data⟩

/-- `String.prototype.substring(n)`. -/
def substrFrom (s : String) (n : Nat) : String := ⟨s.data.drop n⟩

/-- `String.prototype.startsWith`. -/
def startsWithStr (s pat : String) : Bool := startsWithL pat.data s.data

/-- `parseInt(x, 10)`: `none` models `NaN`. -/
def jsParseInt (s : String) : Option Int :=
  let cs := s.data.dropWhile jsWsTrim
  let signAndRest : Bool × List Char :=
    match cs with
    | '-' :: r => (true, r)
    | '+' :: r => (false, r)
    | _ => (false, cs)
  let ds := signAndRest.2.takeWhile Char.isDigit
  if ds.isEmpty then none
  else some (if signAndRest.1 then -(digitsVal ds : Int) else (digitsVal ds : Int))

/-- The `Partial<ReviewComment>` record `parseStructuredText` builds; the
severity is stored as the raw (unvalidated) string, and `line` may hold
the `NaN` of a failed `parseInt` (the inner `none`). -/
structure TextComment where
  file : Option String := none
  line : Option (Option Int) := none
  severity : Option String := none
  category : Option String := none
  message : Option String := none
  suggestion : Option String := none
deriving DecidableEq, Repr

/-- JavaScript truthiness of a possibly absent string. -/
def truthyOpt : Option String → Bool
  | some s => decide (s ≠ "")
  | none => false

/-- The body of the `for (const line of lines)` loop of
`parseStructuredText`. -/
def pstStep (state : TextComment × List TextComment) (line : List Char) :
    TextComment × List TextComment :=
  let currentComment := state.1
  let comments := state.2
  let trimmed := jsTrimStr ⟨line⟩
  if startsWithStr trimmed "FILE:" then
    (⟨some (jsTrimStr (substrFrom trimmed 5)), none, none, none, none, none⟩,
     if truthyOpt currentComment.message then comments ++ [currentComment]
     else comments)
  else if startsWithStr trimmed "LINE:" then
    ({ currentComment with
        line := some (jsParseInt (jsTrimStr (substrFrom trimmed 5))) },
     comments)
  else if startsWithStr trimmed "SEVERITY:" then
    ({ currentComment with
        severity := some (jsTrimStr (substrFrom trimmed 9)) }, comments)
  else if startsWithStr trimmed "CATEGORY:" then
    ({ currentComment with
        category := some (jsTrimStr (substrFrom trimmed 9)) }, comments)
  else if startsWithStr trimmed "MESSAGE:" then
    ({ currentComment with
        message := some (jsTrimStr (substrFrom trimmed 8)) }, comments)
  else if startsWithStr trimmed "SUGGESTION:" then
    ({ currentComment with
        suggestion := some (jsTrimStr (substrFrom trimmed 11)) }, comments)
  else state

/-- `parseStructuredText` from `base-agent.service.ts`: scan the lines for
the field markers, starting a new block at each `FILE:` line and pushing
the previous block if it has a message; push the final block if it has a
message. -/
def parseStructuredText (response : String) : List TextComment :=
  let final := (splitLines response.data).foldl pstStep
    (⟨none, none, none, none, none, none⟩, [])
  if truthyOpt final.1.message then final.2 ++ [final.1] else final.2

/-- The JavaScript object value of a structured-text comment (fields
present only when set; a failed `parseInt` stores `NaN`). -/
def textToJson (t : TextComment) : Json :=
  Json.obj
    ((match t.file with | some f => [("file", Json.str f)] | none => []) ++
     (match t.line with
      | some (some n) => [("line", Json.num (n : ℚ))]
      | some none => [("line", Json.nan)]
      | none => []) ++
     (match t.severity with
      | some v => [("severity", Json.str v)] | none => []) ++
     (match t.category with
      | some v => [("category", Json.str v)] | none => []) ++
     (match t.message with
      | some v => [("message", Json.str v)] | none => []) ++
     (match t.suggestion with
      | some v => [("suggestion", Json.str v)] | none => []))

/-- `parseResponse` from `base-agent.service.ts`: try `JSON.parse`; a
parsed array is returned as is; `parsed.comments` is returned when it is
a truthy array; accessing `.comments` on `null` throws a `TypeError`
caught by the surrounding `catch`, which — like a parse failure — falls
back to `parseStructuredText`; any other parse result yields `[]`. -/
def parseResponse (response : String) : List Json :=
  match jsonParse response with
  | none => (parseStructuredText response).map textToJson
  | some (.arr l) => l
  | some .null => (parseStructuredText response).map textToJson
  | some v =>
    match lookupLast (objFields v) "comments" with
    | some c =>
      if jsTruthy c then
        match c with
        | .arr l => l
        | _ => []
      else []
    | none => []

/-- Line-safety automaton: scanning from a line start (`atStart = true`),
no line of the input may have `M` as its first non-whitespace character.
Any string accepted by `JSON.parse` passes this scan, which is why a
successful parse leaves nothing for the structured-text fallback to
find. -/
def safeFrom (atStart : Bool) : List Char → Bool
  | [] => true
  | c :: cs =>
    if c = '\n' then safeFrom true cs
    else if jsWsTrim c then safeFrom atStart cs
    else (if atStart then decide (c ≠ 'M') else true) && safeFrom false cs

/-! ### Spec-side definitions and concrete inputs -/

/-- The APPROVE condition exactly as the spec states it (for comparison
with the code): `overallScore >= 85` and no spec-listed REQUEST_CHANGES
condition, the latter being a finding with severity high **and** category
security, or a high risk assessment. The third spec condition, a
merge-blocking flag on a finding, has no counterpart anywhere in the data
model of the source. -/
def specApproveCond (a : EnhancedPRAnalysis) : Prop :=
  (∃ s, a.reviewResult.score = some s ∧ 85 ≤ s) ∧
  (∀ c ∈ a.reviewResult.comments,
    ¬(c.severity = Severity.high ∧ c.category = "security")) ∧
  a.riskLevel ≠ RiskLevel.high

/-- A high-severity finding in a non-security category. -/
def highQualityFinding : ReviewComment :=
  { file := "a.ts", line := some 1, message := "Function is too complex",
    severity := Severity.high, category := "quality" }

/-- An analysis with score 90 whose only finding is high-severity
quality: the spec calls this APPROVE, the code does not. -/
def c1Analysis : EnhancedPRAnalysis :=
  { reviewResult :=
      { agentName := "PR Review Agent", comments := [highQualityFinding],
        score := some 90 },
    riskLevel := RiskLevel.low }

/-- The security-agent finding of the spec scenario in §8. -/
def scenarioSecurityFinding : ReviewComment :=
  { file := "a.ts", line := some 5,
    message := "Hardcoded API key detected in config",
    severity := Severity.high, category := "security" }

/-- The quality-agent finding of the spec scenario in §8. -/
def scenarioQualityFinding : ReviewComment :=
  { file := "a.ts", line := some 5,
    message := "Hardcoded API key detected — move to env",
    severity := Severity.medium, category := "quality" }

/-- The scenario analysis: both scenario findings after deduplication and
prioritization, low risk. -/
def scenarioAnalysis : EnhancedPRAnalysis :=
  { reviewResult :=
      { agentName := "PR Review Agent",
        comments := prioritizeComments
          (deduplicateComments
            [scenarioSecurityFinding, scenarioQualityFinding]),
        score := some 50 },
    riskLevel := RiskLevel.low }

/-- Two distinct findings agreeing on severity, category and file. -/
def tieFindingA : ReviewComment :=
  { file := "a.ts", line := some 1, message := "x",
    severity := Severity.low, category := "style" }

/-- Second tied finding, differing from `tieFindingA` in line and
message only. -/
def tieFindingB : ReviewComment :=
  { file := "a.ts", line := some 2, message := "y",
    severity := Severity.low, category := "style" }

/-- A quality/high finding that nevertheless carries the trivial console
rule id, so the +20 bonus of `calculateConfidence` applies to it. -/
def qualityConsoleFinding : ReviewComment :=
  { file := "a.ts", line := some 1, message := "m",
    severity := Severity.high, category := "quality",
    ruleId := some "STYLE-001" }

/-- A console-log-removal finding: style category, trivial console rule. -/
def styleConsoleFinding : ReviewComment :=
  { file := "a.ts", line := some 1, message := "m",
    severity := Severity.low, category := "style",
    ruleId := some "STYLE-001" }

/-- A quality/high finding with no rule id. -/
def qualityHighFinding : ReviewComment :=
  { file := "a.ts", line := some 1, message := "m",
    severity := Severity.high, category := "quality" }

/-- Agent result for the scorer example: the security agent at 90. -/
def securityResult90 : AgentResult :=
  { agentName := "Security Agent", score := some 90 }

/-- Agent result for the scorer example: an unknown agent at 60, which
falls back to the default weight. -/
def customResult60 : AgentResult :=
  { agentName := "Custom X", score := some 60 }

/-! ### Helper lemmas -/

/-- A filtered list has positive length exactly when some member satisfies
the predicate. -/
theorem filter_length_pos_iff {p : ReviewComment → Bool}
    {l : List ReviewComment} :
    0 < (l.filter p).length ↔ ∃ c ∈ l, p c = true := by
  rw [List.length_pos]
  constructor
  · intro h
    obtain ⟨c, hc⟩ := List.exists_mem_of_ne_nil _ h
    exact ⟨c, (List.mem_filter.mp hc).1, (List.mem_filter.mp hc).2⟩
  · rintro ⟨c, hc, hp⟩
    exact List.ne_nil_of_mem (List.mem_filter.mpr ⟨hc, hp⟩)

/-- `charListCompare` only returns `.eq` on equal lists. -/
theorem charListCompare_eq : ∀ {as bs : List Char},
    charListCompare as bs = Ordering.eq → as = bs := by
  intro as
  induction as with
  | nil => intro bs h; cases bs with
    | nil => rfl
    | cons b bs => simp [charListCompare] at h
  | cons a as ih =>
    intro bs h
    cases bs with
    | nil => simp [charListCompare] at h
    | cons b bs =>
      unfold charListCompare at h
      split at h
      · exact absurd h (by simp)
      · split at h
        · exact absurd h (by simp)
        · next h1 h2 =>
          rw [le_antisymm (not_lt.mp h2) (not_lt.mp h1), ih h]

/-- Every agent weight is positive. -/
theorem agentWeight_pos (name : String) : 0 < agentWeight name := by
  unfold agentWeight
  split_ifs <;> norm_num

/-- The `forEach` accumulation of `calculateOverallScore` computes the two
sums of the weighted-average formula. -/
theorem calcOverall_fold (rs : List AgentResult) : ∀ p : ℚ × ℚ,
    rs.foldl
      (fun (p : ℚ × ℚ) r =>
        let weight := agentWeight r.agentName
        (p.1 + (r.score.getD 0) * weight, p.2 + weight)) p
      = (p.1 + (rs.map fun r => r.score.getD 0 * agentWeight r.agentName).sum,
         p.2 + (rs.map fun r => agentWeight r.agentName).sum) := by
  induction rs with
  | nil => intro p; simp
  | cons r t ih =>
    intro p
    simp only [List.foldl_cons, List.map_cons, List.sum_cons, ih]
    rw [Prod.mk.injEq]
    exact ⟨by ring, by ring⟩

/-! ### Claim theorems -/

/-- Claim C10: for every finding, original line and fixed line, the
auto-fix confidence lies between 30 and 100 inclusive — the single −20
adjustment can never drive the base of 50 below 30. -/
theorem claim10_confidence_bounds (comment : ReviewComment)
    (originalCode fixedCode : String) :
    30 ≤ calculateConfidence comment originalCode fixedCode ∧
      calculateConfidence comment originalCode fixedCode ≤ 100 := by
  unfold calculateConfidence
  dsimp only
  split_ifs <;> omega

/-- Claim C2: any finding with severity high and category security forces
REQUEST_CHANGES regardless of the score. (In the code already a high
severity alone suffices.) -/
theorem claim2_security_tripwire (a : EnhancedPRAnalysis) (c : ReviewComment)
    (hc : c ∈ a.reviewResult.comments) (hs : c.severity = Severity.high)
    (hcat : c.category = "security") :
    determineReviewEvent a = ReviewEvent.REQUEST_CHANGES := by
  have h1 : 0 < (a.reviewResult.comments.filter
      fun c => decide (c.severity = Severity.high)).length :=
    filter_length_pos_iff.mpr ⟨c, hc, by simp [hs]⟩
  unfold determineReviewEvent
  dsimp only
  rw [if_pos (Or.inl h1)]

/-- An analysis containing the high/security scenario finding, used to
instantiate the security trip-wire. -/
def tripwireAnalysis : EnhancedPRAnalysis :=
  { reviewResult :=
      { agentName := "PR Review Agent",
        comments := [scenarioSecurityFinding], score := some 95 },
    riskLevel := RiskLevel.low }

/-- Witness for C2 at a concrete analysis. -/
theorem claim2_witness :
    determineReviewEvent tripwireAnalysis = ReviewEvent.REQUEST_CHANGES :=
  claim2_security_tripwire tripwireAnalysis scenarioSecurityFinding
    (List.mem_singleton_self scenarioSecurityFinding) rfl rfl

/-- Claim C1 counterexample: an analysis with score 90 whose only finding
is high-severity but non-security satisfies every APPROVE condition the
spec lists, yet the code returns REQUEST_CHANGES (the code blocks on any
high-severity finding, whatever its category). -/
theorem claim1_counterexample :
    specApproveCond c1Analysis ∧
      determineReviewEvent c1Analysis ≠ ReviewEvent.APPROVE := by
  constructor
  · exact ⟨⟨90, rfl, by norm_num⟩, by decide, by decide⟩
  · decide

/-- Claim C1 (amended): the code returns APPROVE exactly when the score is
present, non-zero and at least 85, no finding has severity high (of any
category), no finding has category security (of any severity), and the
risk level is not high. A merge-blocking flag does not exist in the code. -/
theorem claim1_amended_approve_iff (a : EnhancedPRAnalysis) :
    determineReviewEvent a = ReviewEvent.APPROVE ↔
      ((∀ c ∈ a.reviewResult.comments, c.severity ≠ Severity.high) ∧
       (∀ c ∈ a.reviewResult.comments, c.category ≠ "security") ∧
       a.riskLevel ≠ RiskLevel.high ∧
       ∃ s, a.reviewResult.score = some s ∧ s ≠ 0 ∧ 85 ≤ s) := by
  unfold determineReviewEvent
  dsimp only
  by_cases h1 : (a.reviewResult.comments.filter
        fun c => decide (c.severity = Severity.high)).length > 0 ∨
      (a.reviewResult.comments.filter
        fun c => decide (c.category = "security")).length > 0 ∨
      a.riskLevel = RiskLevel.high
  · rw [if_pos h1]
    apply iff_of_false (by decide)
    rintro ⟨hA, hB, hC, -⟩
    rcases h1 with h | h | h
    · obtain ⟨c, hc, hp⟩ := filter_length_pos_iff.mp h
      exact hA c hc (by simpa using hp)
    · obtain ⟨c, hc, hp⟩ := filter_length_pos_iff.mp h
      exact hB c hc (by simpa using hp)
    · exact hC h
  · rw [if_neg h1]
    push_neg at h1
    obtain ⟨hA, hB, hC⟩ := h1
    have hA' : ∀ c ∈ a.reviewResult.comments, c.severity ≠ Severity.high := by
      intro c hc h
      have hpos : 0 < (a.reviewResult.comments.filter
          fun c => decide (c.severity = Severity.high)).length :=
        filter_length_pos_iff.mpr ⟨c, hc, by simp [h]⟩
      omega
    have hB' : ∀ c ∈ a.reviewResult.comments, c.category ≠ "security" := by
      intro c hc h
      have hpos : 0 < (a.reviewResult.comments.filter
          fun c => decide (c.category = "security")).length :=
        filter_length_pos_iff.mpr ⟨c, hc, by simp [h]⟩
      omega
    cases hsc : a.reviewResult.score with
    | none =>
      apply iff_of_false (by decide)
      rintro ⟨-, -, -, s, hs, -⟩
      simp [hsc] at hs
    | some s =>
      dsimp only
      by_cases h2 : s ≠ 0 ∧ 85 ≤ s
      · rw [if_pos h2]
        exact iff_of_true rfl ⟨hA', hB', hC, s, rfl, h2.1, h2.2⟩
      · rw [if_neg h2]
        apply iff_of_false (by decide)
        rintro ⟨-, -, -, t, ht, ht0, ht85⟩
        rw [Option.some_inj] at ht
        exact h2 (ht ▸ ⟨ht0, ht85⟩)

/-- Claim C3 counterexample: the two scenario findings do **not** collapse
to one — their messages differ inside the first 50 characters, so their
fingerprints differ and the Deduplicator keeps both. -/
theorem claim3_counterexample :
    (deduplicateComments
        [scenarioSecurityFinding, scenarioQualityFinding]).length = 2 ∧
    (deduplicateComments
        [scenarioSecurityFinding, scenarioQualityFinding]).length ≠ 1 := by
  decide

/-- Claim C3 (amended): the Deduplicator keeps both scenario findings, the
Prioritizer places the high-severity security finding first, and the
verdict is REQUEST_CHANGES. -/
theorem claim3_amended :
    deduplicateComments [scenarioSecurityFinding, scenarioQualityFinding] =
      [scenarioSecurityFinding, scenarioQualityFinding] ∧
    prioritizeComments
        (deduplicateComments
          [scenarioSecurityFinding, scenarioQualityFinding]) =
      [scenarioSecurityFinding, scenarioQualityFinding] ∧
    determineReviewEvent scenarioAnalysis = ReviewEvent.REQUEST_CHANGES := by
  exact ⟨by decide, by decide, by decide⟩

/-- Claim C4 counterexample: two distinct findings that agree on severity,
category and file are both in the Prioritizer output and the comparator
judges them equal. -/
theorem claim4_counterexample :
    tieFindingA ∈ prioritizeComments [tieFindingA, tieFindingB] ∧
    tieFindingB ∈ prioritizeComments [tieFindingA, tieFindingB] ∧
    tieFindingA ≠ tieFindingB ∧
    cmpComments tieFindingA tieFindingB = 0 := by
  decide

/-- Claim C4 (amended): the comparator is a total preorder, not a total
order: any two findings either compare strictly, or agree on severity
rank, category importance and file name (distinct findings differing only
in other fields — line, message, … — compare equal). -/
theorem claim4_amended_trichotomy (a b : ReviewComment) :
    cmpComments a b < 0 ∨ 0 < cmpComments a b ∨
      (severityOrder a.severity = severityOrder b.severity ∧
       categoryOrder a.category = categoryOrder b.category ∧
       a.file = b.file) := by
  unfold cmpComments
  dsimp only
  split_ifs with h1 h2
  · rcases h1.lt_or_lt with h | h
    · exact Or.inl h
    · exact Or.inr (Or.inl h)
  · rcases h2.lt_or_lt with h | h
    · exact Or.inl h
    · exact Or.inr (Or.inl h)
  · push_neg at h1 h2
    have hsev : severityOrder a.severity = severityOrder b.severity := by omega
    have hcat : categoryOrder a.category = categoryOrder b.category := by omega
    unfold localeCompare
    rcases hcc : charListCompare a.file.data b.file.data with _ | _ | _
    · exact Or.inl (by decide)
    · exact Or.inr (Or.inr ⟨hsev, hcat, String.ext (charListCompare_eq hcc)⟩)
    · exact Or.inr (Or.inl (by decide))

/-- Evaluation form of `calculateSimilarity` when the first string is
strictly longer. -/
theorem calculateSimilarity_of_gt {a b : String} (h : b.length < a.length) :
    calculateSimilarity a b =
      ((a.length : ℚ) - (levenshteinDistance a b : ℚ)) / (a.length : ℚ) := by
  unfold calculateSimilarity
  dsimp only
  have h' : (a.length > b.length) = True := eq_true h
  simp only [h', if_true]
  rw [if_neg (by omega)]

/-- Claim C6 counterexample: a quality/high finding that carries the
trivial console rule id and whose original line contains `console.` gets
the +20 bonus, so with similarity 0 (below 0.3) its confidence is 50,
above the 40 the claim demands. -/
theorem claim6_counterexample :
    qualityConsoleFinding.category = "quality" ∧
    qualityConsoleFinding.severity = Severity.high ∧
    calculateSimilarity "console." "z" < 3/10 ∧
    40 < calculateConfidence qualityConsoleFinding "console." "z" := by
  have hsim : calculateSimilarity "console." "z" = 0 := by
    rw [calculateSimilarity_of_gt (by decide),
      show levenshteinDistance "console." "z" = 8 from by decide,
      show ("console." : String).length = 8 from by decide]
    norm_num
  refine ⟨rfl, rfl, by rw [hsim]; norm_num, ?_⟩
  have e1 : ¬(qualityConsoleFinding.category = "style") := by decide
  have e2 : qualityConsoleFinding.ruleId = some "STYLE-001" ∧
      strContains "console." "console." = true := ⟨rfl, by decide⟩
  have e3 : qualityConsoleFinding.category = "quality" ∧
      qualityConsoleFinding.severity = Severity.high := ⟨rfl, rfl⟩
  have e4 : ¬(calculateSimilarity "console." "z" > 7/10) := by
    rw [hsim]; norm_num
  unfold calculateConfidence
  dsimp only
  rw [if_neg e1, if_pos e2, if_pos e3, if_neg e4]
  omega

/-- Claim C6 (amended): a console-log-removal finding (style category,
trivial console rule, original line containing `console.`) with
similarity above 0.7 scores at least 90; and a quality/high finding with
similarity below 0.3 scores at most 40 **provided** the trivial-console
+20 bonus does not apply to it. -/
theorem claim6_amended :
    (∀ (comment : ReviewComment) (originalCode fixedCode : String),
        comment.category = "style" →
        comment.ruleId = some "STYLE-001" →
        strContains originalCode "console." = true →
        calculateSimilarity originalCode fixedCode > 7/10 →
        90 ≤ calculateConfidence comment originalCode fixedCode) ∧
    (∀ (comment : ReviewComment) (originalCode fixedCode : String),
        comment.category = "quality" →
        comment.severity = Severity.high →
        calculateSimilarity originalCode fixedCode < 3/10 →
        ¬(comment.ruleId = some "STYLE-001" ∧
          strContains originalCode "console." = true) →
        calculateConfidence comment originalCode fixedCode ≤ 40) := by
  constructor
  · intro c o f h1 h2 h3 h4
    have hq : ¬(c.category = "quality" ∧ c.severity = Severity.high) := by
      rintro ⟨hq, -⟩
      rw [h1] at hq
      exact absurd hq (by decide)
    have hb : c.ruleId = some "STYLE-001" ∧ strContains o "console." = true :=
      ⟨h2, h3⟩
    unfold calculateConfidence
    dsimp only
    rw [if_pos h1, if_pos hb, if_neg hq, if_pos h4]
    omega
  · intro c o f h1 h2 h3 h4
    have hstyle : ¬(c.category = "style") := by
      rw [h1]; decide
    have hsim : ¬(calculateSimilarity o f > 7/10) := by
      intro hgt; linarith
    have hb : c.category = "quality" ∧ c.severity = Severity.high := ⟨h1, h2⟩
    unfold calculateConfidence
    dsimp only
    rw [if_neg hstyle, if_neg h4, if_pos hb, if_neg hsim]
    omega

set_option maxRecDepth 4000 in
/-- Witness for the two amended C6 bounds at concrete findings and
lines. -/
theorem claim6_witness :
    90 ≤ calculateConfidence styleConsoleFinding "console.log(1);"
        "console.log(1)" ∧
    calculateConfidence qualityHighFinding "abcdefghij" "z" ≤ 40 := by
  constructor
  · apply claim6_amended.1 _ _ "console.log(1)" rfl rfl (by decide)
    rw [calculateSimilarity_of_gt (by decide),
      show levenshteinDistance "console.log(1);" "console.log(1)" = 1
        from by decide,
      show ("console.log(1);" : String).length = 15 from by decide]
    norm_num
  · apply claim6_amended.2 _ _ "z" rfl rfl ?_ ?_
    · rw [calculateSimilarity_of_gt (by decide),
        show levenshteinDistance "abcdefghij" "z" = 10 from by decide,
        show ("abcdefghij" : String).length = 10 from by decide]
      norm_num
    · rintro ⟨h, -⟩
      exact absurd h (by decide)

/-- Claim C7: for any agent results the overall score is the rounded
weighted average with per-agent weights (default weight for unknown
agents), and for the empty list it is 100. -/
theorem claim7_overall_score :
    (∀ rs : List AgentResult, rs ≠ [] →
      calculateOverallScore rs =
        jsRound
          ((rs.map fun r => r.score.getD 0 * agentWeight r.agentName).sum /
           (rs.map fun r => agentWeight r.agentName).sum)) ∧
    calculateOverallScore [] = 100 := by
  constructor
  · intro rs hrs
    unfold calculateOverallScore
    rw [if_neg (by simpa using hrs)]
    dsimp only
    rw [calcOverall_fold rs]
    have hw : 0 < (rs.map fun r => agentWeight r.agentName).sum := by
      apply List.sum_pos
      · intro x hx
        obtain ⟨r, hr, rfl⟩ := List.mem_map.mp hx
        exact agentWeight_pos _
      · simpa using hrs
    rw [if_pos (by simpa using hw)]
    norm_num
  · rfl

/-- Witness for C7: security agent at 90 (weight 0.3) and an unknown agent
at 60 (default weight 0.1) average to 82.5, rounded to 83. -/
theorem claim7_witness :
    calculateOverallScore [securityResult90, customResult60] = 83 := by
  rw [claim7_overall_score.1 [securityResult90, customResult60] (by simp)]
  norm_num [securityResult90, customResult60, jsRound,
    show agentWeight "Security Agent" = 3/10 from rfl,
    show agentWeight "Custom X" = 1/10 from rfl]

/-- Unfolding lemma for `mapKeys`. -/
theorem mapKeys_def (m : List (String × ReviewComment)) :
    mapKeys m = m.map Prod.fst := rfl

/-- An entry of `mapSet m k c` is the new entry or an old one. -/
theorem mem_mapSet (m : List (String × ReviewComment)) (k : String)
    (c : ReviewComment) (p : String × ReviewComment)
    (hp : p ∈ mapSet m k c) : p = (k, c) ∨ p ∈ m := by
  induction m with
  | nil =>
    simp only [mapSet, List.mem_singleton] at hp
    exact Or.inl hp
  | cons q rest ih =>
    obtain ⟨k0, c0⟩ := q
    unfold mapSet at hp
    by_cases h0 : k0 = k
    · rw [if_pos h0] at hp
      rcases List.mem_cons.mp hp with hp | hp
      · subst h0
        exact Or.inl hp
      · exact Or.inr (List.mem_cons_of_mem _ hp)
    · rw [if_neg h0] at hp
      rcases List.mem_cons.mp hp with hp | hp
      · exact Or.inr (by rw [hp]; exact List.mem_cons_self _ _)
      · rcases ih hp with h | h
        · exact Or.inl h
        · exact Or.inr (List.mem_cons_of_mem _ h)

/-- Setting a key then looking it up yields the new value. -/
theorem mapLookup_mapSet_self (m : List (String × ReviewComment))
    (k : String) (c : ReviewComment) :
    mapLookup (mapSet m k c) k = some c := by
  induction m with
  | nil => simp [mapSet, mapLookup]
  | cons p rest ih =>
    obtain ⟨k0, c0⟩ := p
    unfold mapSet
    by_cases h : k0 = k
    · simp [h, mapLookup]
    · simp [h, mapLookup, ih]

/-- Setting one key leaves lookups of other keys unchanged. -/
theorem mapLookup_mapSet_ne (m : List (String × ReviewComment))
    (k k' : String) (c : ReviewComment) (h : k ≠ k') :
    mapLookup (mapSet m k c) k' = mapLookup m k' := by
  induction m with
  | nil => simp [mapSet, mapLookup, h]
  | cons p rest ih =>
    obtain ⟨k0, c0⟩ := p
    unfold mapSet
    by_cases h0 : k0 = k
    · subst h0
      simp [mapLookup, h]
    · simp [h0, mapLookup, ih]

/-- A lookup misses exactly when the key is absent. -/
theorem mapLookup_eq_none_iff (m : List (String × ReviewComment))
    (k : String) : mapLookup m k = none ↔ k ∉ mapKeys m := by
  induction m with
  | nil => simp [mapLookup, mapKeys]
  | cons p rest ih =>
    obtain ⟨k0, c0⟩ := p
    unfold mapLookup
    by_cases h : k0 = k
    · simp [h, mapKeys]
    · simp [h, ih, mapKeys, Ne.symm h]

/-- Setting an absent key appends the entry at the end. -/
theorem mapSet_of_not_mem (m : List (String × ReviewComment))
    (k : String) (c : ReviewComment) (h : k ∉ mapKeys m) :
    mapSet m k c = m ++ [(k, c)] := by
  induction m with
  | nil => simp [mapSet]
  | cons p rest ih =>
    obtain ⟨k0, c0⟩ := p
    simp only [mapKeys, List.map_cons, List.mem_cons, not_or] at h
    unfold mapSet
    rw [if_neg (Ne.symm h.1), ih (by simpa [mapKeys] using h.2)]
    rfl

/-- Setting a present key preserves the key list. -/
theorem mapKeys_mapSet_of_mem (m : List (String × ReviewComment))
    (k : String) (c : ReviewComment) (h : k ∈ mapKeys m) :
    mapKeys (mapSet m k c) = mapKeys m := by
  induction m with
  | nil => simp [mapKeys_def] at h
  | cons p rest ih =>
    obtain ⟨k0, c0⟩ := p
    unfold mapSet
    by_cases h0 : k0 = k
    · rw [if_pos h0]
      simp [mapKeys_def]
    · rw [if_neg h0]
      simp only [mapKeys_def, List.map_cons, List.mem_cons] at h
      rcases h with h | h
      · exact absurd h.symm h0
      · have hrec : mapKeys (mapSet rest k c) = mapKeys rest :=
          ih (by simpa [mapKeys_def] using h)
        simp only [mapKeys_def, List.map_cons] at hrec ⊢
        rw [hrec]

/-- A successful lookup means the key is present. -/
theorem mem_mapKeys_of_lookup (m : List (String × ReviewComment))
    (k : String) (c : ReviewComment) (h : mapLookup m k = some c) :
    k ∈ mapKeys m := by
  by_contra hk
  rw [(mapLookup_eq_none_iff m k).mpr hk] at h
  exact Option.noConfusion h

/-- `dedupStep` at the fingerprint of the incoming comment behaves as the
per-key merge `updMax`. -/
theorem mapLookup_dedupStep_self (m : List (String × ReviewComment))
    (c : ReviewComment) :
    mapLookup (dedupStep m c) (dedupKey c) =
      updMax (mapLookup m (dedupKey c)) c := by
  unfold dedupStep updMax
  dsimp only
  cases h : mapLookup m (dedupKey c) with
  | none =>
    dsimp only
    rw [mapLookup_mapSet_self]
  | some e =>
    dsimp only
    by_cases hc : severityOrder c.severity > severityOrder e.severity
    · rw [if_pos hc, if_pos hc, mapLookup_mapSet_self]
    · rw [if_neg hc, if_neg hc, h]

/-- `dedupStep` does not disturb lookups at other fingerprints. -/
theorem mapLookup_dedupStep_ne (m : List (String × ReviewComment))
    (c : ReviewComment) (key : String) (h : dedupKey c ≠ key) :
    mapLookup (dedupStep m c) key = mapLookup m key := by
  unfold dedupStep
  dsimp only
  cases hm : mapLookup m (dedupKey c) with
  | none =>
    dsimp only
    rw [mapLookup_mapSet_ne _ _ _ _ h]
  | some e =>
    dsimp only
    by_cases hc : severityOrder c.severity > severityOrder e.severity
    · rw [if_pos hc, mapLookup_mapSet_ne _ _ _ _ h]
    · rw [if_neg hc]

/-- `dedupStep` preserves well-formedness of the `seen` map. -/
theorem dedupStep_wf (m : List (String × ReviewComment))
    (c : ReviewComment) (h : mapWF m) : mapWF (dedupStep m c) := by
  obtain ⟨hnd, hkey⟩ := h
  have hpair : ∀ p ∈ mapSet m (dedupKey c) c, p.1 = dedupKey p.2 := by
    intro p hp
    rcases mem_mapSet m (dedupKey c) c p hp with hp | hp
    · subst hp
      rfl
    · exact hkey p hp
  unfold dedupStep
  dsimp only
  cases hm : mapLookup m (dedupKey c) with
  | none =>
    dsimp only
    have hk : dedupKey c ∉ mapKeys m := (mapLookup_eq_none_iff _ _).mp hm
    constructor
    · rw [mapKeys_def, mapSet_of_not_mem _ _ _ hk, List.map_append,
        List.nodup_append]
      refine ⟨by simpa [mapKeys_def] using hnd, by simp, ?_⟩
      intro a ha hb
      simp only [List.map_cons, List.map_nil, List.mem_singleton] at hb
      rw [hb] at ha
      exact hk (by simpa [mapKeys_def] using ha)
    · exact hpair
  | some e =>
    dsimp only
    by_cases hc : severityOrder c.severity > severityOrder e.severity
    · rw [if_pos hc]
      have hmem := mem_mapKeys_of_lookup _ _ _ hm
      exact ⟨by rw [mapKeys_mapSet_of_mem _ _ _ hmem]; exact hnd, hpair⟩
    · rw [if_neg hc]
      exact ⟨hnd, hkey⟩

/-- Folding `dedupStep` preserves well-formedness. -/
theorem foldl_dedupStep_wf (l : List ReviewComment) :
    ∀ m, mapWF m → mapWF (l.foldl dedupStep m) := by
  induction l with
  | nil => intro m h; exact h
  | cons c t ih => intro m h; exact ih _ (dedupStep_wf m c h)

/-- The lookup of a fold of `dedupStep` is the per-key `updMax` fold over
the comments carrying that fingerprint. -/
theorem mapLookup_foldl_dedupStep (l : List ReviewComment) :
    ∀ (m : List (String × ReviewComment)) (key : String),
    mapLookup (l.foldl dedupStep m) key =
      (l.filter fun c => decide (dedupKey c = key)).foldl updMax
        (mapLookup m key) := by
  induction l with
  | nil => intro m key; rfl
  | cons c t ih =>
    intro m key
    simp only [List.foldl_cons]
    rw [ih]
    by_cases hk : dedupKey c = key
    · rw [List.filter_cons_of_pos (by simpa using hk), List.foldl_cons]
      subst hk
      rw [mapLookup_dedupStep_self]
    · rw [List.filter_cons_of_neg (by simpa using hk),
        mapLookup_dedupStep_ne _ _ _ hk]

/-- Dropping a head whose rank is below the maximum of the tail does not
change the first maximal element. -/
theorem firstMax_cons_of_lt (e : ReviewComment) (l : List ReviewComment)
    (h : severityOrder e.severity < maxRank l) :
    firstMax (e :: l) = firstMax l := by
  have hm : maxRank (e :: l) = maxRank l := by
    unfold maxRank at h ⊢
    simp only [List.map_cons, List.foldr_cons]
    omega
  unfold firstMax
  rw [hm, List.find?_cons]
  have : decide (severityOrder e.severity = maxRank l) = false := by
    simp
    omega
  rw [this]

/-- Dropping a later element dominated by the head does not change the
first maximal element. -/
theorem firstMax_cons_cons_of_le (e c : ReviewComment)
    (t : List ReviewComment)
    (h : severityOrder c.severity ≤ severityOrder e.severity) :
    firstMax (e :: c :: t) = firstMax (e :: t) := by
  have hm : maxRank (e :: c :: t) = maxRank (e :: t) := by
    unfold maxRank
    simp only [List.map_cons, List.foldr_cons]
    omega
  unfold firstMax
  rw [hm]
  by_cases he : severityOrder e.severity = maxRank (e :: t)
  · rw [List.find?_cons, List.find?_cons]
    simp [he]
  · have hrank : maxRank (e :: t) = max (severityOrder e.severity) (maxRank t) := by
      unfold maxRank
      simp [List.map_cons, List.foldr_cons]
    have hc : decide (severityOrder c.severity = maxRank (e :: t)) = false := by
      simp only [decide_eq_false_iff_not]
      omega
    have he' : decide (severityOrder e.severity = maxRank (e :: t)) = false := by
      simpa using he
    rw [List.find?_cons, he', List.find?_cons, hc, List.find?_cons, he']

/-- Folding `updMax` from a seeded first element computes the first
maximal comment. -/
theorem foldl_updMax_some (l : List ReviewComment) :
    ∀ e, l.foldl updMax (some e) = firstMax (e :: l) := by
  induction l with
  | nil =>
    intro e
    unfold firstMax maxRank
    simp [List.find?_cons]
  | cons c t ih =>
    intro e
    simp only [List.foldl_cons]
    by_cases hc : severityOrder c.severity > severityOrder e.severity
    · have hle2 : severityOrder c.severity ≤ maxRank (c :: t) := by
        unfold maxRank
        simp only [List.map_cons, List.foldr_cons]
        exact Nat.le_max_left _ _
      rw [show updMax (some e) c = some c from by
        unfold updMax; dsimp only; rw [if_pos hc]]
      rw [ih c, firstMax_cons_of_lt _ _ (lt_of_lt_of_le hc hle2)]
    · rw [show updMax (some e) c = some e from by
        unfold updMax; dsimp only; rw [if_neg hc]]
      rw [ih e, firstMax_cons_cons_of_le e c t (by omega)]

/-- Folding `updMax` from `none` computes the first maximal comment. -/
theorem foldl_updMax_none (l : List ReviewComment) :
    l.foldl updMax none = firstMax l := by
  cases l with
  | nil => rfl
  | cons c t =>
    simp only [List.foldl_cons]
    exact foldl_updMax_some t c

/-- In a well-formed map, filtering the values by fingerprint is the
lookup at that fingerprint. -/
theorem filter_values_eq_lookup (m : List (String × ReviewComment))
    (hwf : mapWF m) (key : String) :
    (m.map Prod.snd).filter (fun c => decide (dedupKey c = key)) =
      (mapLookup m key).toList := by
  induction m with
  | nil => rfl
  | cons p rest ih =>
    obtain ⟨k, c⟩ := p
    obtain ⟨hnd, hkey⟩ := hwf
    have hk : k = dedupKey c := hkey (k, c) (List.mem_cons_self _ _)
    have hnd2 : (k :: mapKeys rest).Nodup := by
      simpa only [mapKeys_def, List.map_cons] using hnd
    have hnd' : k ∉ mapKeys rest := (List.nodup_cons.mp hnd2).1
    have hwf' : mapWF rest :=
      ⟨(List.nodup_cons.mp hnd2).2,
       fun q hq => hkey q (List.mem_cons_of_mem _ hq)⟩
    simp only [List.map_cons, List.filter_cons]
    unfold mapLookup
    by_cases hkk : k = key
    · rw [if_pos hkk]
      have hd : decide (dedupKey c = key) = true := by
        simp [← hk, hkk]
      rw [hd]
      have hrest : (rest.map Prod.snd).filter
          (fun c => decide (dedupKey c = key)) = [] := by
        rw [List.filter_eq_nil_iff]
        intro c' hc'
        obtain ⟨q, hq, rfl⟩ := List.mem_map.mp hc'
        have : q.1 = dedupKey q.2 := hwf'.2 q hq
        have hqk : q.1 ≠ key := by
          intro hq1
          apply hnd'
          rw [← hkk] at hq1
          rw [← hq1]
          exact List.mem_map_of_mem Prod.fst hq
        simp only [decide_eq_true_eq]
        rw [← this]
        exact hqk
      rw [hrest]
      rfl
    · rw [if_neg hkk]
      have hd : decide (dedupKey c = key) = false := by
        simp [← hk, hkk]
      rw [hd]
      exact ih hwf'

/-- Folding fresh fingerprints appends each comment unchanged. -/
theorem foldl_dedupStep_all_new (l : List ReviewComment) :
    ∀ m, (∀ c ∈ l, dedupKey c ∉ mapKeys m) → (l.map dedupKey).Nodup →
    l.foldl dedupStep m = m ++ l.map (fun c => (dedupKey c, c)) := by
  induction l with
  | nil => intro m _ _; simp
  | cons c t ih =>
    intro m habs hnd
    have hnd2 : (dedupKey c :: t.map dedupKey).Nodup := by
      simpa only [List.map_cons] using hnd
    have hlook : mapLookup m (dedupKey c) = none :=
      (mapLookup_eq_none_iff _ _).mpr (habs c (List.mem_cons_self _ _))
    have hstep : dedupStep m c = m ++ [(dedupKey c, c)] := by
      unfold dedupStep
      dsimp only
      rw [hlook]
      exact mapSet_of_not_mem _ _ _ (habs c (List.mem_cons_self _ _))
    simp only [List.foldl_cons]
    rw [hstep, ih]
    · simp
    · intro c' hc'
      rw [mapKeys_def, List.map_append]
      rw [List.mem_append]
      rintro (hmem | hmem)
      · exact habs c' (List.mem_cons_of_mem _ hc') (by simpa [mapKeys_def] using hmem)
      · simp only [List.map_cons, List.map_nil, List.mem_singleton] at hmem
        exact (List.nodup_cons.mp hnd2).1
          (hmem ▸ List.mem_map_of_mem dedupKey hc')
    · exact (List.nodup_cons.mp hnd2).2

/-- Deduplication is the identity on lists with pairwise distinct
fingerprints. -/
theorem dedup_of_nodup_keys (l : List ReviewComment)
    (h : (l.map dedupKey).Nodup) : deduplicateComments l = l := by
  unfold deduplicateComments
  rw [foldl_dedupStep_all_new l [] (by simp [mapKeys_def]) h]
  simp only [List.nil_append, List.map_map]
  rw [show (Prod.snd ∘ fun c => (dedupKey c, c)) = id from rfl, List.map_id]

/-- The output of `deduplicateComments` has pairwise distinct
fingerprints. -/
theorem dedup_keys_nodup (x : List ReviewComment) :
    ((deduplicateComments x).map dedupKey).Nodup := by
  unfold deduplicateComments
  have hwf := foldl_dedupStep_wf x [] ⟨List.nodup_nil, by simp⟩
  rw [List.map_map]
  have : (x.foldl dedupStep []).map (dedupKey ∘ Prod.snd) =
      (x.foldl dedupStep []).map Prod.fst := by
    apply List.map_congr_left
    intro p hp
    exact (hwf.2 p hp).symm
  rw [this]
  exact hwf.1

/-- Claim C8: the Deduplicator is idempotent. -/
theorem claim8_dedup_idempotent (x : List ReviewComment) :
    deduplicateComments (deduplicateComments x) = deduplicateComments x :=
  dedup_of_nodup_keys _ (dedup_keys_nodup x)

/-- Claim C9: for every fingerprint, the single survivor (if any) among
the deduplicated output is the first comment of maximal severity rank
among the inputs with that fingerprint — a strictly higher rank replaces,
equal ranks keep the first encountered. -/
theorem claim9_dedup_keeps_first_max (comments : List ReviewComment)
    (key : String) :
    (deduplicateComments comments).filter
        (fun c => decide (dedupKey c = key)) =
      (firstMax (comments.filter
        fun c => decide (dedupKey c = key))).toList := by
  unfold deduplicateComments
  rw [filter_values_eq_lookup _ (foldl_dedupStep_wf comments []
      ⟨List.nodup_nil, by simp⟩) key,
    mapLookup_foldl_dedupStep,
    show mapLookup [] key = none from rfl,
    foldl_updMax_none]

/-- Digits have code points 48 to 57. -/
theorem isDigit_toNat_bounds (c : Char) (h : c.isDigit = true) :
    48 ≤ c.toNat ∧ c.toNat ≤ 57 := by
  simp only [Char.isDigit, ge_iff_le, Bool.and_eq_true, decide_eq_true_eq] at h
  obtain ⟨h1, h2⟩ := h
  rw [UInt32.le_def, BitVec.le_def] at h1 h2
  exact ⟨h1, h2⟩

/-- Any character with code point in `[33, 125]` other than `M` is not a
newline, not trim-whitespace, and not `M`. -/
theorem token_char_facts (c : Char) (h33 : 33 ≤ c.toNat)
    (h125 : c.toNat ≤ 125) (h77 : c.toNat ≠ 77) :
    c ≠ '\n' ∧ jsWsTrim c = false ∧ c ≠ 'M' := by
  refine ⟨?_, ?_, ?_⟩
  · intro heq
    subst heq
    simp at h33
  · apply Bool.eq_false_iff.mpr
    intro hjs
    simp only [jsWsTrim, Bool.or_eq_true, beq_iff_eq, Bool.and_eq_true,
      decide_eq_true_eq] at hjs
    omega
  · intro heq
    subst heq
    simp at h77

/-- A character of a JSON number is not a newline, not trim-whitespace,
and not `M`. -/
theorem numChar_facts (c : Char) (h : numChar c = true) :
    c ≠ '\n' ∧ jsWsTrim c = false ∧ c ≠ 'M' := by
  simp only [numChar, Bool.or_eq_true, beq_iff_eq] at h
  have hb : 33 ≤ c.toNat ∧ c.toNat ≤ 125 ∧ c.toNat ≠ 77 := by
    rcases h with ((((h | h) | h) | h) | h) | h
    · have := isDigit_toNat_bounds c h
      omega
    · subst h; decide
    · subst h; decide
    · subst h; decide
    · subst h; decide
    · subst h; decide
  exact token_char_facts c hb.1 hb.2.1 hb.2.2

/-- A hexadecimal digit is not a newline. -/
theorem hexDigit_ne_nl (c : Char) (h : isHexDigit c = true) : c ≠ '\n' := by
  simp only [isHexDigit, Bool.or_eq_true, Bool.and_eq_true,
    decide_eq_true_eq] at h
  intro heq
  subst heq
  rcases h with (h | ⟨h1, h2⟩) | ⟨h1, h2⟩
  · simp at h
  · rw [Char.le_def, UInt32.le_def, BitVec.le_def] at h1
    simp at h1
  · rw [Char.le_def, UInt32.le_def, BitVec.le_def] at h1
    simp at h1

/-- Consuming a token character from any state is safe when the rest is
safe from the running state. -/
theorem safeFrom_cons_token (c : Char) (cs : List Char) (hne : c ≠ '\n')
    (hw : jsWsTrim c = false) (hm : c ≠ 'M')
    (h : safeFrom false cs = true) : ∀ a, safeFrom a (c :: cs) = true := by
  intro a
  unfold safeFrom
  rw [if_neg hne, if_neg (by simp [hw])]
  cases a
  · simpa using h
  · simp [hm, h]

/-- From mid-line state any non-newline character is safe. -/
theorem safeFrom_false_cons (c : Char) (cs : List Char) (hne : c ≠ '\n')
    (h : safeFrom false cs = true) : safeFrom false (c :: cs) = true := by
  unfold safeFrom
  rw [if_neg hne]
  by_cases hw : jsWsTrim c = true
  · rw [if_pos hw]
    exact h
  · rw [if_neg hw]
    simpa using h

/-- The four JSON whitespace characters never fire the automaton. -/
theorem safeFrom_of_dropWhile_jsonWs : ∀ cs : List Char,
    (∀ b, safeFrom b (cs.dropWhile jsonWs) = true) →
    ∀ a, safeFrom a cs = true := by
  intro cs
  induction cs with
  | nil => intro _ _; rfl
  | cons c t ih =>
    intro h a
    by_cases hw : jsonWs c = true
    · rw [List.dropWhile_cons_of_pos hw] at h
      have hc : c = ' ' ∨ c = '\t' ∨ c = '\n' ∨ c = '\r' := by
        have := hw
        simp only [jsonWs, Bool.or_eq_true, beq_iff_eq] at this
        tauto
      unfold safeFrom
      rcases hc with rfl | rfl | rfl | rfl
      · rw [if_neg (by decide), if_pos (by decide)]
        exact ih h a
      · rw [if_neg (by decide), if_pos (by decide)]
        exact ih h a
      · rw [if_pos rfl]
        exact ih h true
      · rw [if_neg (by decide), if_pos (by decide)]
        exact ih h a
    · rw [List.dropWhile_cons_of_neg hw] at h
      exact h a

/-- A whitespace-only remainder is safe from any state. -/
theorem safeFrom_ws_only : ∀ l : List Char, l.dropWhile jsonWs = [] →
    ∀ b, safeFrom b l = true := by
  intro l
  induction l with
  | nil => intro _ _; rfl
  | cons c t ih =>
    intro h b
    by_cases hw : jsonWs c = true
    · rw [List.dropWhile_cons_of_pos hw] at h
      have hc : c = ' ' ∨ c = '\t' ∨ c = '\n' ∨ c = '\r' := by
        have := hw
        simp only [jsonWs, Bool.or_eq_true, beq_iff_eq] at this
        tauto
      unfold safeFrom
      rcases hc with rfl | rfl | rfl | rfl
      · rw [if_neg (by decide), if_pos (by decide)]
        exact ih h b
      · rw [if_neg (by decide), if_pos (by decide)]
        exact ih h b
      · rw [if_pos rfl]
        exact ih h true
      · rw [if_neg (by decide), if_pos (by decide)]
        exact ih h b
    · rw [List.dropWhile_cons_of_neg hw] at h
      exact absurd h (by simp)

/-- A block of number characters followed by a remainder that is safe
from every state is safe from every state. -/
theorem safeFrom_append_numchars : ∀ (x rest : List Char),
    (∀ c ∈ x, numChar c = true) → (∀ b, safeFrom b rest = true) →
    ∀ a, safeFrom a (x ++ rest) = true := by
  intro x
  induction x with
  | nil => intro rest _ h a; exact h a
  | cons c t ih =>
    intro rest hx hrest a
    obtain ⟨h1, h2, h3⟩ := numChar_facts c (hx c (List.mem_cons_self _ _))
    exact safeFrom_cons_token c (t ++ rest) h1 h2 h3
      (ih rest (fun d hd => hx d (List.mem_cons_of_mem _ hd)) hrest false) a

/-- Members of `takeWhile Char.isDigit` are number characters. -/
theorem takeWhile_digits_numChar (l : List Char) :
    ∀ c ∈ l.takeWhile Char.isDigit, numChar c = true := by
  intro c hc
  have := List.mem_takeWhile_imp hc
  simp [numChar, this]

/-- A successful number parse consumes exactly the maximal run of number
characters. -/
theorem parseJNum_split (cs : List Char) (q : ℚ) (rest : List Char)
    (h : parseJNum cs = some (q, rest)) :
    cs = cs.takeWhile numChar ++ rest ∧
      ∀ c ∈ cs.takeWhile numChar, numChar c = true := by
  unfold parseJNum at h
  split at h
  · simp only [Option.some_inj, Prod.mk.injEq] at h
    refine ⟨?_, ?_⟩
    · rw [← h.2]
      exact (List.takeWhile_append_dropWhile ..).symm
    · intro c hc
      exact List.mem_takeWhile_imp hc
  · exact absurd h (by simp)

/-- A successful number parse of a remainder that is safe from every
state was itself safe from every state. -/
theorem parseJNum_safe (cs : List Char) (q : ℚ) (rest : List Char)
    (h : parseJNum cs = some (q, rest))
    (hrest : ∀ b, safeFrom b rest = true) :
    ∀ a, safeFrom a cs = true := by
  obtain ⟨hsplit, hall⟩ := parseJNum_split cs q rest h
  intro a
  rw [hsplit]
  exact safeFrom_append_numchars _ rest hall hrest a

/-- An escapable character is not a newline. -/
theorem escToChar_ne_nl (e c : Char) (h : escToChar e = some c) :
    e ≠ '\n' := by
  intro heq
  subst heq
  rw [show escToChar '\n' = none from rfl] at h
  exact Option.noConfusion h

/-- A successful string-body parse whose remainder is safe mid-line was
itself safe mid-line: a JSON string contains no raw newline. -/
theorem parseJStr_safe : ∀ (fuel : Nat) (cs out rest : List Char),
    parseJStr fuel cs = some (out, rest) → safeFrom false rest = true →
    safeFrom false cs = true := by
  intro fuel
  induction fuel with
  | zero =>
    intro cs out rest h _
    exact absurd h (by simp [parseJStr])
  | succ f ih =>
    intro cs out rest h hrest
    match cs with
    | [] => exact absurd h (by simp [parseJStr])
    | c :: t =>
      unfold parseJStr at h
      by_cases hq : c = '"'
      · rw [if_pos hq] at h
        simp only [Option.some_inj, Prod.mk.injEq] at h
        subst hq
        rw [← h.2] at hrest
        exact safeFrom_false_cons '"' t (by decide) hrest
      · rw [if_neg hq] at h
        by_cases hbs : c = '\\'
        · rw [if_pos hbs] at h
          subst hbs
          split at h
          · next h1 h2 h3 h4 rest2 =>
            split at h
            · next hhex =>
              split at h
              · next cs' r heq =>
                simp only [Option.some_inj, Prod.mk.injEq] at h
                rw [← h.2] at hrest
                simp only [Bool.and_eq_true] at hhex
                have hs2 : safeFrom false rest2 = true := ih rest2 cs' r heq hrest
                have hs3 := safeFrom_false_cons h4 rest2
                  (hexDigit_ne_nl h4 hhex.2) hs2
                have hs4 := safeFrom_false_cons h3 _
                  (hexDigit_ne_nl h3 hhex.1.2) hs3
                have hs5 := safeFrom_false_cons h2 _
                  (hexDigit_ne_nl h2 hhex.1.1.2) hs4
                have hs6 := safeFrom_false_cons h1 _
                  (hexDigit_ne_nl h1 hhex.1.1.1) hs5
                have hs7 := safeFrom_false_cons 'u' _ (by decide) hs6
                exact safeFrom_false_cons '\\' _ (by decide) hs7
              · exact absurd h (by simp)
            · exact absurd h (by simp)
          · next e rest2 hnot =>
            split at h
            · next ec heq =>
              split at h
              · next cs' r heq2 =>
                simp only [Option.some_inj, Prod.mk.injEq] at h
                rw [← h.2] at hrest
                have hs2 : safeFrom false rest2 = true :=
                  ih rest2 cs' r heq2 hrest
                have hs3 := safeFrom_false_cons e rest2
                  (escToChar_ne_nl e ec heq) hs2
                exact safeFrom_false_cons '\\' _ (by decide) hs3
              · exact absurd h (by simp)
            · exact absurd h (by simp)
          · exact absurd h (by simp)
        · rw [if_neg hbs] at h
          by_cases hctl : c.toNat < 32
          · rw [if_pos hctl] at h
            exact absurd h (by simp)
          · rw [if_neg hctl] at h
            split at h
            · next cs' r heq =>
              simp only [Option.some_inj, Prod.mk.injEq] at h
              rw [← h.2] at hrest
              have hcn : c ≠ '\n' := by
                intro heqc
                subst heqc
                exact hctl (by decide)
              exact safeFrom_false_cons c t hcn (ih t cs' r heq hrest)
            · exact absurd h (by simp)

/-- Joint safety of the five mutually recursive parser functions: a
successful parse whose remainder is safe from every automaton state was
itself safe from every state. -/
theorem parse_safe (fuel : Nat) :
    (∀ cs v rest, parseJVal fuel cs = some (v, rest) →
      (∀ b, safeFrom b rest = true) → ∀ a, safeFrom a cs = true) ∧
    (∀ cs v rest, parseJObjBody fuel cs = some (v, rest) →
      (∀ b, safeFrom b rest = true) → ∀ a, safeFrom a cs = true) ∧
    (∀ cs acc v rest, parseJMembers fuel cs acc = some (v, rest) →
      (∀ b, safeFrom b rest = true) → ∀ a, safeFrom a cs = true) ∧
    (∀ cs v rest, parseJArrBody fuel cs = some (v, rest) →
      (∀ b, safeFrom b rest = true) → ∀ a, safeFrom a cs = true) ∧
    (∀ cs acc v rest, parseJElems fuel cs acc = some (v, rest) →
      (∀ b, safeFrom b rest = true) → ∀ a, safeFrom a cs = true) := by
  induction fuel with
  | zero =>
    refine ⟨?_, ?_, ?_, ?_, ?_⟩
    · intro cs v rest h
      exact absurd h (by simp [parseJVal])
    · intro cs v rest h
      exact absurd h (by simp [parseJObjBody])
    · intro cs acc v rest h
      exact absurd h (by simp [parseJMembers])
    · intro cs v rest h
      exact absurd h (by simp [parseJArrBody])
    · intro cs acc v rest h
      exact absurd h (by simp [parseJElems])
  | succ f ih =>
    obtain ⟨ihV, ihO, ihM, ihA, ihE⟩ := ih
    refine ⟨?_, ?_, ?_, ?_, ?_⟩
    · -- parseJVal
      intro cs v rest h hrest
      unfold parseJVal at h
      apply safeFrom_of_dropWhile_jsonWs
      cases hws : cs.dropWhile jsonWs with
      | nil =>
        rw [hws] at h
        exact absurd h (by simp)
      | cons c r =>
        rw [hws] at h
        dsimp only at h
        intro b
        by_cases h1 : c = '{'
        · rw [if_pos h1] at h
          subst h1
          exact safeFrom_cons_token '{' r (by decide) (by decide) (by decide)
            (ihO r v rest h hrest false) b
        · rw [if_neg h1] at h
          by_cases h2 : c = '['
          · rw [if_pos h2] at h
            subst h2
            exact safeFrom_cons_token '[' r (by decide) (by decide)
              (by decide) (ihA r v rest h hrest false) b
          · rw [if_neg h2] at h
            by_cases h3 : c = '"'
            · rw [if_pos h3] at h
              subst h3
              split at h
              · next out rest' heq =>
                simp only [Option.some_inj, Prod.mk.injEq] at h
                exact safeFrom_cons_token '"' r (by decide) (by decide)
                  (by decide)
                  (parseJStr_safe f r out rest' heq (h.2 ▸ hrest false)) b
              · exact absurd h (by simp)
            · rw [if_neg h3] at h
              by_cases h4 : c = 't'
              · rw [if_pos h4] at h
                subst h4
                split at h
                · next r2 =>
                  simp only [Option.some_inj, Prod.mk.injEq] at h
                  have hs : safeFrom false r2 = true := h.2 ▸ hrest false
                  have he := safeFrom_false_cons 'e' r2 (by decide) hs
                  have hu := safeFrom_false_cons 'u' _ (by decide) he
                  have hr := safeFrom_false_cons 'r' _ (by decide) hu
                  exact safeFrom_cons_token 't' _ (by decide) (by decide)
                    (by decide) hr b
                · exact absurd h (by simp)
              · rw [if_neg h4] at h
                by_cases h5 : c = 'f'
                · rw [if_pos h5] at h
                  subst h5
                  split at h
                  · next r2 =>
                    simp only [Option.some_inj, Prod.mk.injEq] at h
                    have hs : safeFrom false r2 = true := h.2 ▸ hrest false
                    have he := safeFrom_false_cons 'e' r2 (by decide) hs
                    have hs2 := safeFrom_false_cons 's' _ (by decide) he
                    have hl := safeFrom_false_cons 'l' _ (by decide) hs2
                    have ha := safeFrom_false_cons 'a' _ (by decide) hl
                    exact safeFrom_cons_token 'f' _ (by decide) (by decide)
                      (by decide) ha b
                  · exact absurd h (by simp)
                · rw [if_neg h5] at h
                  by_cases h6 : c = 'n'
                  · rw [if_pos h6] at h
                    subst h6
                    split at h
                    · next r2 =>
                      simp only [Option.some_inj, Prod.mk.injEq] at h
                      have hs : safeFrom false r2 = true := h.2 ▸ hrest false
                      have hl := safeFrom_false_cons 'l' r2 (by decide) hs
                      have hl2 := safeFrom_false_cons 'l' _ (by decide) hl
                      have hu := safeFrom_false_cons 'u' _ (by decide) hl2
                      exact safeFrom_cons_token 'n' _ (by decide) (by decide)
                        (by decide) hu b
                    · exact absurd h (by simp)
                  · rw [if_neg h6] at h
                    by_cases h7 : (c = '-' || c.isDigit) = true
                    · rw [if_pos h7] at h
                      split at h
                      · next q rest' heq =>
                        simp only [Option.some_inj, Prod.mk.injEq] at h
                        exact parseJNum_safe (c :: r) q rest' heq
                          (fun b2 => h.2 ▸ hrest b2) b
                      · exact absurd h (by simp)
                    · rw [if_neg h7] at h
                      exact absurd h (by simp)
    · -- parseJObjBody
      intro cs v rest h hrest
      unfold parseJObjBody at h
      split at h
      · next r heq =>
        simp only [Option.some_inj, Prod.mk.injEq] at h
        apply safeFrom_of_dropWhile_jsonWs
        intro b
        rw [heq]
        exact safeFrom_cons_token '}' r (by decide) (by decide) (by decide)
          (h.2 ▸ hrest false) b
      · exact ihM cs [] v rest h hrest
    · -- parseJMembers
      intro cs acc v rest h hrest
      unfold parseJMembers at h
      split at h
      · next r heq =>
        apply safeFrom_of_dropWhile_jsonWs
        intro b
        rw [heq]
        split at h
        · next key r2 heqs =>
          split at h
          · next r3 heq2 =>
            split at h
            · next v' r4 heqv =>
              split at h
              · next r5 heq3 =>
                have hr5 : ∀ a2, safeFrom a2 r5 = true :=
                  ihM r5 _ v rest h hrest
                have hcomma : ∀ a2, safeFrom a2 (',' :: r5) = true :=
                  safeFrom_cons_token ',' r5 (by decide) (by decide)
                    (by decide) (hr5 false)
                have hr4 : ∀ a2, safeFrom a2 r4 = true := by
                  apply safeFrom_of_dropWhile_jsonWs
                  intro b2
                  rw [heq3]
                  exact hcomma b2
                have hr3 : ∀ a2, safeFrom a2 r3 = true :=
                  ihV r3 v' r4 heqv hr4
                have hcolon : ∀ a2, safeFrom a2 (':' :: r3) = true :=
                  safeFrom_cons_token ':' r3 (by decide) (by decide)
                    (by decide) (hr3 false)
                have hr2 : ∀ a2, safeFrom a2 r2 = true := by
                  apply safeFrom_of_dropWhile_jsonWs
                  intro b2
                  rw [heq2]
                  exact hcolon b2
                have hr : safeFrom false r = true :=
                  parseJStr_safe f r key r2 heqs (hr2 false)
                exact safeFrom_cons_token '"' r (by decide) (by decide)
                  (by decide) hr b
              · next r5 heq3 =>
                simp only [Option.some_inj, Prod.mk.injEq] at h
                have hr5 : ∀ a2, safeFrom a2 r5 = true :=
                  fun a2 => h.2 ▸ hrest a2
                have hbrace : ∀ a2, safeFrom a2 ('}' :: r5) = true :=
                  safeFrom_cons_token '}' r5 (by decide) (by decide)
                    (by decide) (hr5 false)
                have hr4 : ∀ a2, safeFrom a2 r4 = true := by
                  apply safeFrom_of_dropWhile_jsonWs
                  intro b2
                  rw [heq3]
                  exact hbrace b2
                have hr3 : ∀ a2, safeFrom a2 r3 = true :=
                  ihV r3 v' r4 heqv hr4
                have hcolon : ∀ a2, safeFrom a2 (':' :: r3) = true :=
                  safeFrom_cons_token ':' r3 (by decide) (by decide)
                    (by decide) (hr3 false)
                have hr2 : ∀ a2, safeFrom a2 r2 = true := by
                  apply safeFrom_of_dropWhile_jsonWs
                  intro b2
                  rw [heq2]
                  exact hcolon b2
                have hr : safeFrom false r = true :=
                  parseJStr_safe f r key r2 heqs (hr2 false)
                exact safeFrom_cons_token '"' r (by decide) (by decide)
                  (by decide) hr b
              · exact absurd h (by simp)
            · exact absurd h (by simp)
          · exact absurd h (by simp)
        · exact absurd h (by simp)
      · exact absurd h (by simp)
    · -- parseJArrBody
      intro cs v rest h hrest
      unfold parseJArrBody at h
      split at h
      · next r heq =>
        simp only [Option.some_inj, Prod.mk.injEq] at h
        apply safeFrom_of_dropWhile_jsonWs
        intro b
        rw [heq]
        exact safeFrom_cons_token ']' r (by decide) (by decide) (by decide)
          (h.2 ▸ hrest false) b
      · exact ihE cs [] v rest h hrest
    · -- parseJElems
      intro cs acc v rest h hrest
      unfold parseJElems at h
      split at h
      · next v' r heqv =>
        split at h
        · next r2 heq2 =>
          have hr2 : ∀ a2, safeFrom a2 r2 = true := ihE r2 _ v rest h hrest
          have hcomma : ∀ a2, safeFrom a2 (',' :: r2) = true :=
            safeFrom_cons_token ',' r2 (by decide) (by decide) (by decide)
              (hr2 false)
          have hr : ∀ a2, safeFrom a2 r = true := by
            apply safeFrom_of_dropWhile_jsonWs
            intro b2
            rw [heq2]
            exact hcomma b2
          exact ihV cs v' r heqv hr
        · next r2 heq2 =>
          simp only [Option.some_inj, Prod.mk.injEq] at h
          have hr2 : ∀ a2, safeFrom a2 r2 = true := fun a2 => h.2 ▸ hrest a2
          have hbr : ∀ a2, safeFrom a2 (']' :: r2) = true :=
            safeFrom_cons_token ']' r2 (by decide) (by decide) (by decide)
              (hr2 false)
          have hr : ∀ a2, safeFrom a2 r = true := by
            apply safeFrom_of_dropWhile_jsonWs
            intro b2
            rw [heq2]
            exact hbr b2
          exact ihV cs v' r heqv hr
        · exact absurd h (by simp)
      · exact absurd h (by simp)

/-- A string accepted by `JSON.parse` passes the line-safety scan. -/
theorem jsonParse_safe (s : String) (v : Json) (h : jsonParse s = some v) :
    safeFrom true s.data = true := by
  unfold jsonParse at h
  split at h
  · next v' rest heq =>
    split at h
    · next hemp =>
      have hws : rest.dropWhile jsonWs = [] := by
        simpa [List.isEmpty_iff] using hemp
      exact (parse_safe _).1 s.data v' rest heq
        (fun b => safeFrom_ws_only rest hws b) true
    · exact absurd h (by simp)
  · exact absurd h (by simp)

/-- Through the line-safety scan: no line of a scanned string has `M` as
its first non-whitespace character (for the tail lines when the scan
starts mid-line). -/
theorem safe_lines_aux : ∀ cs : List Char,
    (safeFrom true cs = true →
      ∀ line ∈ splitLines cs, (line.dropWhile jsWsTrim).head? ≠ some 'M') ∧
    (safeFrom false cs = true →
      ∀ line ∈ (splitLines cs).tail,
        (line.dropWhile jsWsTrim).head? ≠ some 'M') := by
  intro cs
  induction cs with
  | nil =>
    constructor
    · intro _ line hline
      simp only [splitLines, splitLinesAux, List.mem_singleton] at hline
      subst hline
      simp
    · intro _ line hline
      simp [splitLines, splitLinesAux] at hline
  | cons c t ih =>
    have hsplit : splitLines (c :: t) =
        (if c = '\n' then [] :: splitLines t
         else (c :: (splitLinesAux t).1) :: (splitLinesAux t).2) := by
      by_cases hc : c = '\n' <;>
        simp [splitLines, splitLinesAux, hc]
    constructor
    · intro hs line hline
      rw [hsplit] at hline
      by_cases hc : c = '\n'
      · rw [if_pos hc] at hline
        subst hc
        have hs' : safeFrom true t = true := by
          unfold safeFrom at hs
          rwa [if_pos rfl] at hs
        rcases List.mem_cons.mp hline with rfl | hline
        · simp
        · exact ih.1 hs' line hline
      · rw [if_neg hc] at hline
        by_cases hw : jsWsTrim c = true
        · have hs' : safeFrom true t = true := by
            unfold safeFrom at hs
            rwa [if_neg hc, if_pos hw] at hs
          rcases List.mem_cons.mp hline with rfl | hline
          · rw [List.dropWhile_cons_of_pos hw]
            exact ih.1 hs' (splitLinesAux t).1 (List.mem_cons_self _ _)
          · exact ih.1 hs' line (List.mem_cons_of_mem _ hline)
        · have hs' : decide (c ≠ 'M') = true ∧ safeFrom false t = true := by
            unfold safeFrom at hs
            rw [if_neg hc, if_neg hw] at hs
            simpa using hs
          rcases List.mem_cons.mp hline with rfl | hline
          · rw [List.dropWhile_cons_of_neg (by simp [hw])]
            simp only [List.head?_cons, ne_eq, Option.some_inj]
            exact of_decide_eq_true hs'.1
          · exact ih.2 hs'.2 line hline
    · intro hs line hline
      rw [hsplit] at hline
      by_cases hc : c = '\n'
      · rw [if_pos hc] at hline
        subst hc
        have hs' : safeFrom true t = true := by
          unfold safeFrom at hs
          rwa [if_pos rfl] at hs
        exact ih.1 hs' line (by simpa using hline)
      · rw [if_neg hc] at hline
        by_cases hw : jsWsTrim c = true
        · have hs' : safeFrom false t = true := by
            unfold safeFrom at hs
            rwa [if_neg hc, if_pos hw] at hs
          exact ih.2 hs' line (by simpa using hline)
        · have hs' : safeFrom false t = true := by
            unfold safeFrom at hs
            rw [if_neg hc, if_neg hw] at hs
            simpa using hs
          exact ih.2 hs' line (by simpa using hline)

/-- A list starting with a pattern starts with its first character. -/
theorem startsWithL_head (p : Char) (ps l : List Char)
    (h : startsWithL (p :: ps) l = true) : l.head? = some p := by
  cases l with
  | nil => simp [startsWithL] at h
  | cons b bs =>
    simp only [startsWithL, Bool.and_eq_true, decide_eq_true_eq] at h
    rw [h.1]
    rfl

/-- If the trimmed line starts with `MESSAGE:`, the first non-whitespace
character of the line is `M`. -/
theorem trim_head_M (line : List Char)
    (h : startsWithStr (jsTrimStr ⟨line⟩) "MESSAGE:" = true) :
    (line.dropWhile jsWsTrim).head? = some 'M' := by
  unfold startsWithStr jsTrimStr jsTrim at h
  rw [show ("MESSAGE:".data) = 'M' :: "ESSAGE:".data from rfl] at h
  have hM := startsWithL_head 'M' _ _ h
  have hpre : (((line.dropWhile jsWsTrim).reverse.dropWhile
      jsWsTrim).reverse) <+: line.dropWhile jsWsTrim := by
    have hsuf : (line.dropWhile jsWsTrim).reverse.dropWhile jsWsTrim <:+
        (line.dropWhile jsWsTrim).reverse := List.dropWhile_suffix _
    have := (List.reverse_prefix).mpr hsuf
    rwa [List.reverse_reverse] at this
  obtain ⟨tail0, htail⟩ := hpre
  cases hAr : ((line.dropWhile jsWsTrim).reverse.dropWhile
      jsWsTrim).reverse with
  | nil =>
    rw [hAr] at hM
    simp at hM
  | cons m ms =>
    rw [hAr] at hM htail
    simp only [List.head?_cons, Option.some_inj] at hM
    rw [← htail, List.cons_append, List.head?_cons, hM]

/-- One loop step of `parseStructuredText` on a line that does not start
with `MESSAGE:` keeps the message unset and the output empty. -/
theorem pst_no_message_step (st : TextComment × List TextComment)
    (l : List Char) (h1 : st.1.message = none) (h2 : st.2 = [])
    (hl : startsWithStr (jsTrimStr ⟨l⟩) "MESSAGE:" = false) :
    (pstStep st l).1.message = none ∧ (pstStep st l).2 = [] := by
  unfold pstStep
  dsimp only
  split_ifs with hf htr hli hsev hcat hmsg hsug
  · exact absurd htr (by simp [truthyOpt, h1])
  · exact ⟨rfl, h2⟩
  · exact ⟨h1, h2⟩
  · exact ⟨h1, h2⟩
  · exact ⟨h1, h2⟩
  · exact absurd hmsg (by simp [hl])
  · exact ⟨h1, h2⟩
  · exact ⟨h1, h2⟩

/-- If no line starts (after trimming) with `MESSAGE:`, the structured
text parser returns nothing. -/
theorem pst_empty_of_no_message (s : String)
    (h : ∀ l ∈ splitLines s.data,
      startsWithStr (jsTrimStr ⟨l⟩) "MESSAGE:" = false) :
    parseStructuredText s = [] := by
  unfold parseStructuredText
  dsimp only
  have hinv : ∀ (lines : List (List Char))
      (st : TextComment × List TextComment),
      st.1.message = none → st.2 = [] →
      (∀ l ∈ lines, startsWithStr (jsTrimStr ⟨l⟩) "MESSAGE:" = false) →
      (lines.foldl pstStep st).1.message = none ∧
        (lines.foldl pstStep st).2 = [] := by
    intro lines
    induction lines with
    | nil => intro st h1 h2 _; exact ⟨h1, h2⟩
    | cons l t ihl =>
      intro st h1 h2 hall
      simp only [List.foldl_cons]
      obtain ⟨h1', h2'⟩ := pst_no_message_step st l h1 h2
        (hall l (List.mem_cons_self _ _))
      exact ihl _ h1' h2' (fun l2 hl2 => hall l2 (List.mem_cons_of_mem _ hl2))
  obtain ⟨h1, h2⟩ := hinv (splitLines s.data)
    (⟨none, none, none, none, none, none⟩, []) rfl rfl h
  simp [truthyOpt, h1, h2]

/-- On any input that `JSON.parse` accepts, the structured-text parser
finds nothing: accepted inputs have no line whose first non-whitespace
character could start a `MESSAGE:` marker. -/
theorem jsonParse_pst_empty (s : String) (v : Json)
    (h : jsonParse s = some v) : parseStructuredText s = [] := by
  apply pst_empty_of_no_message
  intro l hl
  cases hsw : startsWithStr (jsTrimStr ⟨l⟩) "MESSAGE:"
  · rfl
  · exact absurd (trim_head_M l hsw)
      ((safe_lines_aux s.data).1 (jsonParse_safe s v h) l hl)

/-- Claim C5: whenever `JSON.parse` fails, or succeeds without yielding a
usable array (neither a JSON array nor an object with a `comments`
array), `parseResponse` returns exactly what the structured-text
fallback produces. -/
theorem claim5_parser_fallback (s : String)
    (h : jsonParse s = none ∨
      ∃ v, jsonParse s = some v ∧ usableArray v = false) :
    parseResponse s = (parseStructuredText s).map textToJson := by
  rcases h with h | ⟨v, hv, hu⟩
  · unfold parseResponse
    rw [h]
  · have hempty : parseStructuredText s = [] := jsonParse_pst_empty s v hv
    unfold parseResponse
    rw [hv, hempty]
    simp only [List.map_nil]
    cases v with
    | null => rfl
    | arr l => exact absurd hu (by simp [usableArray])
    | bool b => rfl
    | num q => rfl
    | nan => rfl
    | str str0 => rfl
    | obj fields =>
      dsimp only
      split
      · next c heq =>
        unfold usableArray at hu
        dsimp only at hu
        rw [heq] at hu
        split
        · split
          · next l =>
            dsimp only at hu
            exact absurd hu (by simp)
          · rfl
        · rfl
      · rfl

/-- Witness for C5 at an input `JSON.parse` rejects: the fallback result
is the structured-text parse. -/
theorem claim5_witness :
    parseResponse "FILE: a.ts\nMESSAGE: hi" =
      (parseStructuredText "FILE: a.ts\nMESSAGE: hi").map textToJson :=
  claim5_parser_fallback "FILE: a.ts\nMESSAGE: hi" (Or.inl rfl)

end CodeReviewBot
